import Mathlib

/-!
# accelerate.c: the benchmark runner and its workloads

A shallow embedding of `accelerate.c`.  The program times naive C loops
against routines of the Accelerate framework.

Conventions of the embedding.

* A C `for (int i = 0; i < n; i++) body` is `for_loop n body 0 s`, where `s`
  is the state the body reads and writes.
* A block (`^{ ... }`) is a function on the state it captures.
* `float` and `double` values are rationals.  Every store into a `float`
  array or a `float` accumulator rounds with `to_float` (24-bit significand,
  round to nearest, ties to even), every `double` sum with `to_double`
  (53 bits); the exponent range is not modelled, the values the workloads
  reach stay far inside it.  The timing values (`CFloat`) are the rationals
  before rounding, extended by the two infinities and NaN that a division can
  produce.
* `struct timeval` comes from `<sys/time.h>`; the bit width `w` of the signed
  integer type of its fields (`long`: 64 on the desktop build, 32 on the
  `__arm__` build the source provides for) is a parameter, and arithmetic on
  it wraps modulo `2 ^ w`.
* `int` is 32 bits wide.
-/

set_option autoImplicit false

namespace Accelerate

/-! ## Machine integers -/

/-- Two's-complement reading of `x` in a signed integer of `w` bits. -/
def wrap (w : Nat) (x : Int) : Int :=
  (x + 2 ^ (w - 1)) % 2 ^ w - 2 ^ (w - 1)

/-- Smallest value of `int`. -/
def INT_MIN : Int := -2147483648

/-- Largest value of `int`. -/
def INT_MAX : Int := 2147483647

/-! ## Floating-point values -/

/-- A `float`/`double` value: a rational (rounding is not modelled), an
infinity, or NaN.  The two zeros are not told apart: every divisor in the
program is an `int` converted to `float`, which is never the negative zero. -/
inductive CFloat where
  | fin (q : ℚ)
  | pinf
  | ninf
  | nan
  deriving DecidableEq

namespace CFloat

/-- Conversion `(float) k` of an integer. -/
def ofInt (k : Int) : CFloat := fin (k : ℚ)

/-- The value is an ordinary number (neither an infinity nor NaN). -/
def isFinite : CFloat → Bool
  | fin _ => true
  | _ => false

/-- The value is a number or infinity that is not below zero. -/
def nonneg : CFloat → Bool
  | fin q => decide (0 ≤ q)
  | pinf => true
  | _ => false

/-- Floating-point division `x / y`: total, a zero divisor gives an infinity
(or NaN for `0 / 0`) and never traps. -/
def div : CFloat → CFloat → CFloat
  | nan, _ => nan
  | _, nan => nan
  | fin a, fin b =>
      if b = 0 then
        if 0 < a then pinf else if a < 0 then ninf else nan
      else fin (a / b)
  | fin _, pinf => fin 0
  | fin _, ninf => fin 0
  | pinf, fin b => if 0 ≤ b then pinf else ninf
  | ninf, fin b => if 0 ≤ b then ninf else pinf
  | pinf, pinf => nan
  | pinf, ninf => nan
  | ninf, pinf => nan
  | ninf, ninf => nan

/-- Floating-point multiplication `x * y`. -/
def mul : CFloat → CFloat → CFloat
  | nan, _ => nan
  | _, nan => nan
  | fin a, fin b => fin (a * b)
  | fin a, pinf => if 0 < a then pinf else if a < 0 then ninf else nan
  | fin a, ninf => if 0 < a then ninf else if a < 0 then pinf else nan
  | pinf, fin b => if 0 < b then pinf else if b < 0 then ninf else nan
  | ninf, fin b => if 0 < b then ninf else if b < 0 then pinf else nan
  | pinf, pinf => pinf
  | pinf, ninf => ninf
  | ninf, pinf => ninf
  | ninf, ninf => pinf

/-- Truncation toward zero of a rational. -/
def trunc (q : ℚ) : Int :=
  if 0 ≤ q then ⌊q⌋ else ⌈q⌉

/-- Conversion `(int) x`, as it happens when a `float` is stored in an `int`
variable: truncation toward zero.  For NaN, an infinity or a value outside
the range of `int` C leaves the result undefined; the embedding then returns
`indef x`, an arbitrary `int` chosen by the caller. -/
def toInt (indef : CFloat → Int) : CFloat → Int
  | fin q =>
      if INT_MIN ≤ trunc q ∧ trunc q ≤ INT_MAX then trunc q else indef (fin q)
  | x => indef x

end CFloat

/-! ## Rounding -/

/-- Rounding of a rational to the nearest integer, a tie going to the even
neighbour. -/
def round_even (q : ℚ) : Int :=
  if q - ⌊q⌋ < 1 / 2 then ⌊q⌋
  else if 1 / 2 < q - ⌊q⌋ then ⌊q⌋ + 1
  else if ⌊q⌋ % 2 = 0 then ⌊q⌋ else ⌊q⌋ + 1

/-- Rounding to the binary floating-point format with a significand of `p`
bits: to the nearest multiple of the unit in the last place
`2 ^ (⌊log2 |q|⌋ - (p - 1))`, ties to even. -/
def round_to (p : Nat) (q : ℚ) : ℚ :=
  if q = 0 then 0
  else (round_even (q / (2 : ℚ) ^ (Int.log 2 |q| - ((p : Int) - 1))) : ℚ)
    * (2 : ℚ) ^ (Int.log 2 |q| - ((p : Int) - 1))

/-- Conversion to `float` (IEEE single precision, 24-bit significand). -/
def to_float (q : ℚ) : ℚ := round_to 24 q

/-- Conversion to `double` (IEEE double precision, 53-bit significand). -/
def to_double (q : ℚ) : ℚ := round_to 53 q

/-! ## Loops -/

/-- The loop `for (int i = i0; i < n; i++) body`, started at `i = i0` in
state `s`; `body i` is one pass at index `i`. -/
def for_loop {σ : Type} (n : Int) (body : Int → σ → σ) (i : Int) (s : σ) : σ :=
  if i < n then for_loop n body (i + 1) (body i s) else s
termination_by (n - i).toNat
decreasing_by omega

/-! ## The runner -/

/-- A timestamp as `gettimeofday` fills it in. -/
structure timeval where
  tv_sec : Int
  tv_usec : Int
  deriving DecidableEq

/-- The expression `t.tv_sec * 1000000 + t.tv_usec`, in `w`-bit arithmetic. -/
def usec (w : Nat) (t : timeval) : Int :=
  wrap w (wrap w (t.tv_sec * 1000000) + t.tv_usec)

/-- The expression `(end.tv_sec * 1000000 + end.tv_usec) -
(start.tv_sec * 1000000 + start.tv_usec)`, in `w`-bit arithmetic. -/
def elapsed_usec (w : Nat) (start end_ : timeval) : Int :=
  wrap w (usec w end_ - usec w start)

/-- The function `benchmark(caption, block, times)`.  `start` and `end_` are
the timestamps the two calls of `gettimeofday` deliver, `s` is the state the
block captures.  Returns the state after the loop and the value of `msec`.
The two `printf` calls (the caption, then `msec`) are not part of the
state. -/
def benchmark {σ : Type} (w : Nat) (block : σ → σ) (times : Int)
    (start end_ : timeval) (s : σ) : σ × CFloat :=
  let s1 := for_loop times (fun _ => block) 0 s
  let msec := CFloat.fin ((elapsed_usec w start end_ : ℚ) / 1000)
  let msec := CFloat.div msec (CFloat.ofInt times)
  (s1, msec)

/-- A work unit that counts its own invocations. -/
def counting_stub (c : Int) : Int := c + 1

/-- The error the specification gives the runner (section 7). -/
inductive RunError where
  | InvalidArgument
  deriving DecidableEq

/-- The runner as the specification words it (sections 4.1, 7 and 8): a count
below 1 is rejected with `InvalidArgument` before the work unit runs; any
other count is served as `benchmark` serves it. -/
def run_spec {σ : Type} (w : Nat) (block : σ → σ) (times : Int)
    (start end_ : timeval) (s : σ) : Except RunError (σ × CFloat) :=
  if times < 1 then Except.error RunError.InvalidArgument
  else Except.ok (benchmark w block times start end_ s)

/-! ## The comparison printed by `main` -/

/-- The percentage of a "... took %f%% execution time." line of `main`.  The
two averages returned by `benchmark` are first stored in the variables
`int sample1, sample2`, then `((float)sample2 / (float)sample1) * 100` is
printed. -/
def took_percent (indef : CFloat → Int) (naive_avg accelerated_avg : CFloat) : CFloat :=
  let sample1 : Int := CFloat.toInt indef naive_avg
  let sample2 : Int := CFloat.toInt indef accelerated_avg
  CFloat.mul (CFloat.div (CFloat.ofInt sample2) (CFloat.ofInt sample1)) (CFloat.ofInt 100)

/-- The ratio of the specification's comparison helper,
`accelerated_avg / naive_avg * 100`. -/
def ratio_spec (naive_avg accelerated_avg : CFloat) : CFloat :=
  CFloat.mul (CFloat.div accelerated_avg naive_avg) (CFloat.ofInt 100)

/-! ## Arrays and library routines -/

/-- The element `a[i]` of an array. -/
def read (a : List ℚ) (i : Int) : ℚ := a.getD i.toNat 0

/-- The assignment `a[i] = v`. -/
def write (a : List ℚ) (i : Int) (v : ℚ) : List ℚ := a.set i.toNat v

/-- The function `fabs` of `<math.h>`. -/
def fabs (x : ℚ) : ℚ := |x|

/-- The function `int abs(int)` of `<stdlib.h>`; `abs(INT_MIN)` wraps. -/
def c_abs (k : Int) : Int := wrap 32 |k|

/-- Modelled from the spec: `catlas_sset(N, alpha, X, incX)` of the Accelerate
framework, the "vectorized fill".  It stores `alpha` in the `N` elements
`X[0], X[incX], ..., X[(N-1)*incX]`; the pointer `X` is the array `a` at
offset `off`. -/
def catlas_sset (N : Int) (alpha : ℚ) (a : List ℚ) (off : Int) (incX : Int) : List ℚ :=
  for_loop N (fun k b => write b (off + k * incX) alpha) 0 a

/-- Modelled from the spec: `cblas_dasum(N, X, incX)` of the Accelerate
framework, the "vectorized sum-of-absolute-values": the sum of `|X[k*incX]|`
over `k < N`. -/
def cblas_dasum (N : Int) (X : List ℚ) (incX : Int) : ℚ :=
  ((List.range N.toNat).map (fun (k : Nat) => |read X ((k : Int) * incX)|)).sum

/-- Modelled from the spec: `cblas_isamax(N, X, incX)` of the Accelerate
framework, the "vectorized index-of-max-absolute-value": the first index `k`
at which `|X[k*incX]|` is largest. -/
def cblas_isamax (N : Int) (X : List ℚ) (incX : Int) : Int :=
  (((List.range N.toNat).argmax (fun (k : Nat) => |read X ((k : Int) * incX)|)).getD 0 : Nat)

/-- The array of length `N` whose element `i` is the integer `i`. -/
def iota (N : Nat) : List ℚ := (List.range N).map (fun (i : Nat) => (i : ℚ))

/-- The array of length `N` whose element `i` is `(float) i`. -/
def float_iota (N : Nat) : List ℚ := (List.range N).map (fun (i : Nat) => to_float (i : ℚ))

/-! ## The work units of `main` -/

/-- The block of the first run, lines 54-58:
`for (int i = 0; i < N; i++) myArray[i] = i;` with `N = 10000000`.  The array
is a `float` array: the store converts the `int` to `float`.  The loop that
sets up `floatArray` (line 136) is this loop too. -/
def populate_C (N : Int) (myArray : List ℚ) : List ℚ :=
  for_loop N (fun i a => write a i (to_float (i : ℚ))) 0 myArray

/-- The block of the second run, lines 60-65:
`for (int i = 0; i < N; i++) { float f = i; catlas_sset(1, f, &(myArray[i]), 1); }`. -/
def populate_catlas (N : Int) (myArray : List ℚ) : List ℚ :=
  for_loop N (fun i a =>
    let f : ℚ := to_float (i : ℚ)
    catlas_sset 1 f a i 1) 0 myArray

/-- The block of lines 158-162, the value it prints:
`float sum = 0; for (int i = 0; i < N; i++) sum += fabs(floatArray[i]);`.
`fabs` works on `double`: the sum is formed in `double` and stored back in
the `float` accumulator, so every pass rounds. -/
def sum_float (N : Int) (floatArray : List ℚ) : ℚ :=
  for_loop N (fun i sum => to_float (to_double (sum + fabs (read floatArray i)))) 0 0

/-- The block of lines 170-174, the value it prints:
`double sum = 0; for (int i = 0; i < N; i++) sum += abs(doubleArray[i]);`.
`abs` takes an `int`: the element is converted to `int` first.  The sum is
formed in `double`. -/
def sum_double (indef : CFloat → Int) (N : Int) (doubleArray : List ℚ) : ℚ :=
  for_loop N (fun i sum =>
    to_double
      (sum + ((c_abs (CFloat.toInt indef (CFloat.fin (read doubleArray i))) : Int) : ℚ))) 0 0

/-- The block of lines 176-179, the value it prints:
`cblas_dasum(N, doubleArray, 1)`. -/
def sum_double_blas (N : Int) (doubleArray : List ℚ) : ℚ :=
  cblas_dasum N doubleArray 1

/-- The block of lines 194-199, the value it prints: `int maxposition = 0;
for (int i = 0; i < N; i++)
  if (fabs(myArray[i]) > fabs(myArray[maxposition])) maxposition = i;`. -/
def search_C (N : Int) (myArray : List ℚ) : Int :=
  for_loop N (fun i maxposition =>
    if fabs (read myArray i) > fabs (read myArray maxposition) then i else maxposition) 0 0

/-- The block of lines 201-204, the value it prints:
`cblas_isamax(N, myArray, 1)`. -/
def search_blas (N : Int) (myArray : List ℚ) : Int :=
  cblas_isamax N myArray 1

/-! ## Loop lemmas -/

theorem for_loop_step {σ : Type} (n : Int) (body : Int → σ → σ) (i : Int) (s : σ)
    (h : i < n) : for_loop n body i s = for_loop n body (i + 1) (body i s) := by
  rw [for_loop, if_pos h]

theorem for_loop_done {σ : Type} (n : Int) (body : Int → σ → σ) (i : Int) (s : σ)
    (h : ¬ i < n) : for_loop n body i s = s := by
  rw [for_loop, if_neg h]

/-- Invariant rule for `for_loop`: a property that holds on entry and is kept
by every pass holds on exit, with the index at the bound. -/
theorem for_loop_invariant {σ : Type} (n : Int) (body : Int → σ → σ)
    (P : Int → σ → Prop)
    (hstep : ∀ j s, j < n → P j s → P (j + 1) (body j s)) :
    ∀ (k : Nat) (i : Int) (s : σ), (n - i).toNat = k → i ≤ n → P i s →
      P n (for_loop n body i s) := by
  intro k
  induction k with
  | zero =>
    intro i s hk hi hP
    have hin : i = n := by omega
    subst hin
    rw [for_loop_done _ _ _ _ (lt_irrefl _)]
    exact hP
  | succ k ih =>
    intro i s hk hi hP
    have hlt : i < n := by omega
    rw [for_loop_step _ _ _ _ hlt]
    exact ih (i + 1) (body i s) (by omega) (by omega) (hstep i s hlt hP)

/-- A loop whose bound is not above its start index does nothing. -/
theorem for_loop_nonpos {σ : Type} (n : Int) (body : Int → σ → σ) (s : σ)
    (h : n ≤ 0) : for_loop n body 0 s = s :=
  for_loop_done _ _ _ _ (by omega)

/-- A loop whose body ignores the index applies it `n` times in a row. -/
theorem for_loop_const {σ : Type} (n : Nat) (f : σ → σ) (s : σ) :
    for_loop (n : Int) (fun _ => f) 0 s = f^[n] s := by
  have h := for_loop_invariant (n : Int) (fun _ => f)
    (fun j t => 0 ≤ j ∧ t = f^[j.toNat] s)
    (by
      intro j t _ hP
      obtain ⟨hj, ht⟩ := hP
      refine ⟨by omega, ?_⟩
      have : (j + 1).toNat = j.toNat + 1 := by omega
      rw [this, Function.iterate_succ_apply', ht])
    n 0 s (by simp) (by omega) ⟨le_refl _, by simp⟩
  simpa using h.2

theorem two_pow_split (w : Nat) (hw : 1 ≤ w) : (2 : Int) ^ w = 2 * 2 ^ (w - 1) := by
  obtain ⟨k, rfl⟩ : ∃ k, w = k + 1 := ⟨w - 1, by omega⟩
  simp [pow_succ]
  ring

/-- A value in the range of the `w`-bit signed integers is its own reading. -/
theorem wrap_eq_self (w : Nat) (hw : 1 ≤ w) (x : Int)
    (hlo : -2 ^ (w - 1) ≤ x) (hhi : x < 2 ^ (w - 1)) : wrap w x = x := by
  unfold wrap
  have h2 := two_pow_split w hw
  rw [Int.emod_eq_of_lt (by omega) (by omega)]
  omega

/-- Wrapping does not change the residue modulo `2 ^ w`. -/
theorem wrap_emod (w : Nat) (x : Int) : wrap w x % 2 ^ w = x % 2 ^ w := by
  unfold wrap
  have h : ((x + 2 ^ (w - 1)) % 2 ^ w - 2 ^ (w - 1)) % 2 ^ w
      = ((x + 2 ^ (w - 1)) - 2 ^ (w - 1)) % 2 ^ w := by
    rw [Int.sub_emod, Int.emod_emod_of_dvd _ (dvd_refl _), ← Int.sub_emod]
  rw [h]
  congr 1
  ring

/-- Wrapping depends on the residue modulo `2 ^ w` only. -/
theorem wrap_congr (w : Nat) (x y : Int) (h : x % 2 ^ w = y % 2 ^ w) :
    wrap w x = wrap w y := by
  unfold wrap
  have : (x + 2 ^ (w - 1)) % 2 ^ w = (y + 2 ^ (w - 1)) % 2 ^ w := by
    rw [Int.add_emod, h, ← Int.add_emod]
  rw [this]

/-- The wrapped difference of the two wrapped microsecond counts is the
wrapped exact difference. -/
theorem elapsed_usec_eq_wrap (w : Nat) (start end_ : timeval) :
    elapsed_usec w start end_ =
      wrap w ((end_.tv_sec * 1000000 + end_.tv_usec)
        - (start.tv_sec * 1000000 + start.tv_usec)) := by
  have husec : ∀ t : timeval,
      usec w t % 2 ^ w = (t.tv_sec * 1000000 + t.tv_usec) % 2 ^ w := by
    intro t
    unfold usec
    rw [wrap_emod, Int.add_emod, wrap_emod, ← Int.add_emod]
  unfold elapsed_usec
  apply wrap_congr
  rw [Int.sub_emod, husec, husec, ← Int.sub_emod]


/-- The state `benchmark` hands back is the block applied `times` times. -/
theorem benchmark_state {σ : Type} (w : Nat) (block : σ → σ) (times : Int)
    (start end_ : timeval) (s : σ) :
    (benchmark w block times start end_ s).1 = block^[times.toNat] s := by
  show for_loop times (fun _ => block) 0 s = block^[times.toNat] s
  rcases le_or_lt 0 times with h | h
  · obtain ⟨n, rfl⟩ := Int.eq_ofNat_of_zero_le h
    rw [for_loop_const]
    simp
  · rw [for_loop_nonpos _ _ _ (by omega)]
    have : times.toNat = 0 := by omega
    rw [this]
    rfl

/-- The value `benchmark` returns, for a count that is not zero. -/
theorem benchmark_msec {σ : Type} (w : Nat) (block : σ → σ) (times : Int)
    (start end_ : timeval) (s : σ) (h : times ≠ 0) :
    (benchmark w block times start end_ s).2 =
      CFloat.fin ((elapsed_usec w start end_ : ℚ) / 1000 / (times : ℚ)) := by
  have hq : (times : ℚ) ≠ 0 := by exact_mod_cast h
  show CFloat.div (CFloat.fin _) (CFloat.ofInt times) = _
  simp [CFloat.div, CFloat.ofInt, hq]

/-- C1: for every count `n ≥ 1` and every work unit, the state after
`benchmark` is the work unit applied `n` times in a row to the state before,
and nothing else; run on the counting stub from 0 the counter ends at `n`. -/
theorem C1_invokes_exactly_n_times {σ : Type} (w : Nat) (block : σ → σ) (n : Int)
    (hn : 1 ≤ n) (start end_ : timeval) (s : σ) :
    (benchmark w block n start end_ s).1 = block^[n.toNat] s ∧
    (benchmark w counting_stub n start end_ 0).1 = n := by
  refine ⟨benchmark_state w block n start end_ s, ?_⟩
  rw [benchmark_state]
  have hstub : ∀ k : Nat, counting_stub^[k] 0 = (k : Int) := by
    intro k
    induction k with
    | zero => rfl
    | succ k ih =>
      rw [Function.iterate_succ_apply', ih]
      simp [counting_stub]
  rw [hstub]
  omega

/-- C1 at the count 3: a block that pushes 7 on a list, and the counting
stub. -/
theorem C1_witness :
    (1 : Int) ≤ 3 ∧
    (benchmark 64 (fun l : List Nat => 7 :: l) 3 ⟨10, 0⟩ ⟨10, 500⟩ []).1
        = (fun l : List Nat => 7 :: l)^[(3 : Int).toNat] [] ∧
    (benchmark 64 counting_stub 3 ⟨10, 0⟩ ⟨10, 500⟩ 0).1 = 3 :=
  ⟨by decide,
    C1_invokes_exactly_n_times 64 (fun l : List Nat => 7 :: l) 3 (by decide)
      ⟨10, 0⟩ ⟨10, 500⟩ []⟩

/-- C2, as the claim states it, fails: called with the count 0 on timestamps
one millisecond apart, the specification's runner fails with
`InvalidArgument`, while `benchmark` returns normally, and what it returns is
the quotient of the elapsed millisecond by the count 0, the positive
infinity. -/
theorem C2_counterexample :
    run_spec 64 counting_stub 0 ⟨0, 0⟩ ⟨0, 1000⟩ 0 = Except.error RunError.InvalidArgument ∧
    benchmark 64 counting_stub 0 ⟨0, 0⟩ ⟨0, 1000⟩ 0
      = (0, CFloat.div (CFloat.fin 1) (CFloat.ofInt 0)) ∧
    CFloat.div (CFloat.fin 1) (CFloat.ofInt 0) = CFloat.pinf ∧
    run_spec 64 counting_stub 0 ⟨0, 0⟩ ⟨0, 1000⟩ 0
      ≠ Except.ok (benchmark 64 counting_stub 0 ⟨0, 0⟩ ⟨0, 1000⟩ 0) := by
  have he : elapsed_usec 64 ⟨0, 0⟩ ⟨0, 1000⟩ = 1000 := by decide
  have hs : run_spec 64 counting_stub 0 ⟨0, 0⟩ ⟨0, 1000⟩ 0
      = Except.error RunError.InvalidArgument := by
    unfold run_spec
    rw [if_pos (by decide)]
  refine ⟨hs, ?_, ?_, ?_⟩
  · simp [benchmark, he, for_loop_nonpos]
  · simp [CFloat.div, CFloat.ofInt]
  · rw [hs]
    intro h
    cases h

/-- C2, amended: for every count below 1, `benchmark` does not invoke the work
unit (the captured state is returned as it was, and the counting stub stays
at 0), has no failure path, and returns the elapsed milliseconds divided by
the count; for the count 0 that quotient is not finite. -/
theorem C2_count_below_one {σ : Type} (w : Nat) (block : σ → σ) (times : Int)
    (ht : times < 1) (start end_ : timeval) (s : σ) :
    (benchmark w block times start end_ s).1 = s ∧
    (benchmark w counting_stub times start end_ 0).1 = 0 ∧
    (benchmark w block times start end_ s).2 =
      CFloat.div (CFloat.fin ((elapsed_usec w start end_ : ℚ) / 1000)) (CFloat.ofInt times) ∧
    (times = 0 → (benchmark w block times start end_ s).2.isFinite = false) := by
  have h0 : times.toNat = 0 := by omega
  refine ⟨?_, ?_, rfl, ?_⟩
  · rw [benchmark_state, h0]; rfl
  · rw [benchmark_state, h0]; rfl
  · intro hz
    subst hz
    show (CFloat.div (CFloat.fin _) (CFloat.ofInt 0)).isFinite = false
    simp only [CFloat.div, CFloat.ofInt, Int.cast_zero, if_true]
    split_ifs <;> rfl

/-- C2, amended, at the count 0. -/
theorem C2_witness :
    (0 : Int) < 1 ∧
    (benchmark 64 (fun l : List Nat => 7 :: l) 0 ⟨10, 0⟩ ⟨10, 500⟩ [1]).1 = [1] ∧
    (benchmark 64 counting_stub 0 ⟨10, 0⟩ ⟨10, 500⟩ 0).1 = 0 ∧
    (benchmark 64 (fun l : List Nat => 7 :: l) 0 ⟨10, 0⟩ ⟨10, 500⟩ [1]).2 =
      CFloat.div (CFloat.fin ((elapsed_usec 64 ⟨10, 0⟩ ⟨10, 500⟩ : ℚ) / 1000)) (CFloat.ofInt 0) ∧
    (benchmark 64 (fun l : List Nat => 7 :: l) 0 ⟨10, 0⟩ ⟨10, 500⟩ [1]).2.isFinite = false :=
  have h := C2_count_below_one 64 (fun l : List Nat => 7 :: l) 0 (by decide)
    ⟨10, 0⟩ ⟨10, 500⟩ [1]
  ⟨by decide, h.1, h.2.1, h.2.2.1, h.2.2.2 rfl⟩

/-- C4, as the claim states it, fails where the elapsed microseconds leave
the range of the time arithmetic.  On the 32-bit build, timestamps 2148
seconds apart and one iteration: the exact formula gives 2148000 msec, the
code returns -2146967.296 msec.  On the 64-bit build the same happens at the
timestamp of 9223372036855 seconds. -/
theorem C4_counterexample :
    ((benchmark 32 counting_stub 1 ⟨1300000000, 0⟩ ⟨1300002148, 0⟩ 0).2
        = CFloat.fin (-2146967296 / 1000 / 1) ∧
      (benchmark 32 counting_stub 1 ⟨1300000000, 0⟩ ⟨1300002148, 0⟩ 0).2
        ≠ CFloat.fin ((((1300002148 * 1000000 + 0) - (1300000000 * 1000000 + 0) : Int) : ℚ)
            / 1000 / (1 : Int))) ∧
    ((benchmark 64 counting_stub 1 ⟨0, 0⟩ ⟨9223372036855, 0⟩ 0).2
        = CFloat.fin (-9223372036854551616 / 1000 / 1) ∧
      (benchmark 64 counting_stub 1 ⟨0, 0⟩ ⟨9223372036855, 0⟩ 0).2
        ≠ CFloat.fin ((((9223372036855 * 1000000 + 0) - (0 * 1000000 + 0) : Int) : ℚ)
            / 1000 / (1 : Int))) := by
  have h32 : elapsed_usec 32 ⟨1300000000, 0⟩ ⟨1300002148, 0⟩ = -2146967296 := by decide
  have h64 : elapsed_usec 64 ⟨0, 0⟩ ⟨9223372036855, 0⟩ = -9223372036854551616 := by decide
  refine ⟨⟨?_, ?_⟩, ⟨?_, ?_⟩⟩
  · rw [benchmark_msec _ _ _ _ _ _ (by decide), h32]; norm_num
  · rw [benchmark_msec _ _ _ _ _ _ (by decide), h32]; norm_num
  · rw [benchmark_msec _ _ _ _ _ _ (by decide), h64]; norm_num
  · rw [benchmark_msec _ _ _ _ _ _ (by decide), h64]; norm_num

/-- C4, amended: for a time arithmetic of `w ≥ 1` bits, every count `n ≥ 1`
and every pair of timestamps whose exact difference in microseconds
`d = (s1*1000000 + u1) - (s0*1000000 + u0)` lies in the signed `w`-bit range,
`benchmark` returns `d / 1000 / n`, the elapsed milliseconds divided by the
count (in exact rational arithmetic). -/
theorem C4_average_msec {σ : Type} (w : Nat) (hw : 1 ≤ w) (block : σ → σ) (n : Int)
    (hn : 1 ≤ n) (start end_ : timeval) (s : σ)
    (hlo : -2 ^ (w - 1) ≤ (end_.tv_sec * 1000000 + end_.tv_usec)
      - (start.tv_sec * 1000000 + start.tv_usec))
    (hhi : (end_.tv_sec * 1000000 + end_.tv_usec)
      - (start.tv_sec * 1000000 + start.tv_usec) < 2 ^ (w - 1)) :
    (benchmark w block n start end_ s).2 =
      CFloat.fin ((((end_.tv_sec * 1000000 + end_.tv_usec)
        - (start.tv_sec * 1000000 + start.tv_usec) : Int) : ℚ) / 1000 / (n : ℚ)) := by
  rw [benchmark_msec w block n start end_ s (by omega), elapsed_usec_eq_wrap,
    wrap_eq_self w hw _ hlo hhi]

/-- C4, amended, on the 64-bit build: 50 iterations between two timestamps
1.002 seconds apart. -/
theorem C4_witness :
    ((1 : Nat) ≤ 64 ∧ (1 : Int) ≤ 50 ∧
      (-2 ^ (64 - 1) : Int) ≤ (1300000002 * 1000000 + 1000) - (1300000000 * 1000000 + 999000) ∧
      ((1300000002 * 1000000 + 1000) - (1300000000 * 1000000 + 999000) : Int) < 2 ^ (64 - 1)) ∧
    (benchmark 64 counting_stub 50 ⟨1300000000, 999000⟩ ⟨1300000002, 1000⟩ 0).2 =
      CFloat.fin ((((1300000002 * 1000000 + 1000)
        - (1300000000 * 1000000 + 999000) : Int) : ℚ) / 1000 / ((50 : Int) : ℚ)) :=
  ⟨⟨by decide, by decide, by decide, by decide⟩,
    C4_average_msec 64 (by decide) counting_stub 50 (by decide)
      ⟨1300000000, 999000⟩ ⟨1300000002, 1000⟩ 0 (by decide) (by decide)⟩

/-- C5, as the claim states it, fails where the elapsed microseconds leave
the range of the time arithmetic: on the 32-bit build, with the end 2148
seconds after the start and one iteration, the value returned is
-2146967.296, below zero; on the 64-bit build the same happens with the end
at 9223372036855 seconds. -/
theorem C5_counterexample :
    ((1300000000 * 1000000 + 0 : Int) ≤ 1300002148 * 1000000 + 0 ∧
      (benchmark 32 counting_stub 1 ⟨1300000000, 0⟩ ⟨1300002148, 0⟩ 0).2
        = CFloat.fin (-2146967296 / 1000) ∧
      CFloat.nonneg (benchmark 32 counting_stub 1 ⟨1300000000, 0⟩ ⟨1300002148, 0⟩ 0).2
        = false) ∧
    ((0 * 1000000 + 0 : Int) ≤ 9223372036855 * 1000000 + 0 ∧
      (benchmark 64 counting_stub 1 ⟨0, 0⟩ ⟨9223372036855, 0⟩ 0).2
        = CFloat.fin (-9223372036854551616 / 1000) ∧
      CFloat.nonneg (benchmark 64 counting_stub 1 ⟨0, 0⟩ ⟨9223372036855, 0⟩ 0).2
        = false) := by
  have h32 : elapsed_usec 32 ⟨1300000000, 0⟩ ⟨1300002148, 0⟩ = -2146967296 := by decide
  have h64 : elapsed_usec 64 ⟨0, 0⟩ ⟨9223372036855, 0⟩ = -9223372036854551616 := by decide
  refine ⟨⟨by decide, ?_, ?_⟩, ⟨by decide, ?_, ?_⟩⟩
  · rw [benchmark_msec _ _ _ _ _ _ (by decide), h32]; norm_num
  · rw [benchmark_msec _ _ _ _ _ _ (by decide), h32]
    simp only [CFloat.nonneg]
    norm_num
  · rw [benchmark_msec _ _ _ _ _ _ (by decide), h64]; norm_num
  · rw [benchmark_msec _ _ _ _ _ _ (by decide), h64]
    simp only [CFloat.nonneg]
    norm_num

/-- C5, amended: for a time arithmetic of `w ≥ 1` bits, every count `n ≥ 1`
and every pair of timestamps in which the end is not earlier than the start
and less than `2 ^ (w - 1)` microseconds after it, the value `benchmark`
returns is a number that is not below zero. -/
theorem C5_nonneg {σ : Type} (w : Nat) (hw : 1 ≤ w) (block : σ → σ) (n : Int)
    (hn : 1 ≤ n) (start end_ : timeval) (s : σ)
    (hle : start.tv_sec * 1000000 + start.tv_usec ≤ end_.tv_sec * 1000000 + end_.tv_usec)
    (hhi : (end_.tv_sec * 1000000 + end_.tv_usec)
      - (start.tv_sec * 1000000 + start.tv_usec) < 2 ^ (w - 1)) :
    (∃ q : ℚ, (benchmark w block n start end_ s).2 = CFloat.fin q ∧ 0 ≤ q) ∧
    CFloat.nonneg (benchmark w block n start end_ s).2 = true := by
  suffices h : ∃ q : ℚ, (benchmark w block n start end_ s).2 = CFloat.fin q ∧ 0 ≤ q by
    obtain ⟨q, hq, h0⟩ := h
    exact ⟨⟨q, hq, h0⟩, by rw [hq]; simpa [CFloat.nonneg] using h0⟩
  have hpow : (0 : Int) < 2 ^ (w - 1) := by positivity
  refine ⟨(((end_.tv_sec * 1000000 + end_.tv_usec)
    - (start.tv_sec * 1000000 + start.tv_usec) : Int) : ℚ) / 1000 / (n : ℚ), ?_, ?_⟩
  · rw [benchmark_msec w block n start end_ s (by omega), elapsed_usec_eq_wrap,
      wrap_eq_self w hw _ (by omega) hhi]
  · have hd : (0 : ℚ) ≤ (((end_.tv_sec * 1000000 + end_.tv_usec)
        - (start.tv_sec * 1000000 + start.tv_usec) : Int) : ℚ) := by
      exact_mod_cast (by omega : (0 : Int) ≤ (end_.tv_sec * 1000000 + end_.tv_usec)
        - (start.tv_sec * 1000000 + start.tv_usec))
    have hnq : (0 : ℚ) ≤ (n : ℚ) := by exact_mod_cast (by omega : (0 : Int) ≤ n)
    positivity

/-- C5, amended, on the 32-bit build: 5 iterations between two timestamps
1.002 seconds apart. -/
theorem C5_witness :
    ((1 : Nat) ≤ 32 ∧ (1 : Int) ≤ 5 ∧
      (1300000000 * 1000000 + 999000 : Int) ≤ 1300000002 * 1000000 + 1000 ∧
      ((1300000002 * 1000000 + 1000) - (1300000000 * 1000000 + 999000) : Int) < 2 ^ (32 - 1)) ∧
    CFloat.nonneg (benchmark 32 counting_stub 5 ⟨1300000000, 999000⟩ ⟨1300000002, 1000⟩ 0).2
      = true :=
  ⟨⟨by decide, by decide, by decide, by decide⟩,
    (C5_nonneg 32 (by decide) counting_stub 5 (by decide)
      ⟨1300000000, 999000⟩ ⟨1300000002, 1000⟩ 0 (by decide) (by decide)).2⟩


/-- The binary exponent of a positive rational, from its two bounds. -/
theorem log_two_eq (r : ℚ) (k : Int) (hr : 0 < r) (h1 : (2 : ℚ) ^ k ≤ r)
    (h2 : r < (2 : ℚ) ^ (k + 1)) : Int.log 2 r = k := by
  have hb : (1 : ℕ) < 2 := by decide
  have a1 : k ≤ Int.log 2 r := (Int.zpow_le_iff_le_log hb hr).mp (by exact_mod_cast h1)
  have a2 : Int.log 2 r < k + 1 := (Int.lt_zpow_iff_log_lt hb hr).mp (by exact_mod_cast h2)
  omega

/-- A whole number rounds to itself. -/
theorem round_even_intCast (m : Int) : round_even (m : ℚ) = m := by
  unfold round_even
  simp

/-- A value halfway between two integers rounds to the even one. -/
theorem round_even_tie (f : Int) : round_even ((f : ℚ) + 1 / 2) = if f % 2 = 0 then f else f + 1 := by
  have hf : ⌊(f : ℚ) + 1 / 2⌋ = f := by
    rw [Int.floor_eq_iff]
    constructor <;> norm_num
  unfold round_even
  rw [hf]
  have : (f : ℚ) + 1 / 2 - f = 1 / 2 := by ring
  rw [this]
  simp

/-- A value that is a whole multiple of its unit in the last place is not
changed. -/
theorem round_to_exact (p : Nat) (q : ℚ) (m : Int)
    (h : q / (2 : ℚ) ^ (Int.log 2 |q| - ((p : Int) - 1)) = m) : round_to p q = q := by
  unfold round_to
  split_ifs with h0
  · exact h0.symm
  · rw [h, round_even_intCast, ← h]
    have : (2 : ℚ) ^ (Int.log 2 |q| - ((p : Int) - 1)) ≠ 0 := zpow_ne_zero _ (by norm_num)
    field_simp

/-- A natural number up to `2 ^ p` is a value of the format with `p` bits. -/
theorem round_to_natCast (p : Nat) (hp : 1 ≤ p) (x : Nat) (hx : x ≤ 2 ^ p) :
    round_to p (x : ℚ) = x := by
  rcases Nat.eq_zero_or_pos x with h0 | hpos
  · subst h0; simp [round_to]
  have hxq : (0 : ℚ) < x := by exact_mod_cast hpos
  have habs : |(x : ℚ)| = x := abs_of_pos hxq
  have hlog : Int.log 2 (x : ℚ) = Nat.log 2 x := Int.log_natCast 2 x
  have hk : Nat.log 2 x ≤ p := by
    have := Nat.log_mono_right (b := 2) hx
    rwa [Nat.log_pow (by decide)] at this
  rcases Nat.lt_or_ge (Nat.log 2 x) p with hlt | hge
  · -- exponent of the unit is not positive
    obtain ⟨d, hd⟩ : ∃ d : Nat, (Nat.log 2 x : Int) - ((p : Int) - 1) = -(d : Int) :=
      ⟨p - 1 - Nat.log 2 x, by omega⟩
    apply round_to_exact p (x : ℚ) ((x * 2 ^ d : Nat) : Int)
    rw [habs, hlog, hd, zpow_neg, zpow_natCast]
    push_cast
    field_simp
  · have hkp : Nat.log 2 x = p := le_antisymm hk hge
    have hxe : x = 2 ^ p := by
      apply le_antisymm hx
      have := Nat.pow_log_le_self 2 (Nat.pos_iff_ne_zero.mp hpos)
      rwa [hkp] at this
    obtain ⟨r, rfl⟩ : ∃ r, p = r + 1 := ⟨p - 1, by omega⟩
    apply round_to_exact (r + 1) (x : ℚ) ((2 ^ r : Nat) : Int)
    rw [habs, hlog, hkp, hxe]
    have : ((r + 1 : Nat) : Int) - (((r + 1 : Nat) : Int) - 1) = 1 := by omega
    rw [this]
    push_cast
    rw [pow_succ]
    field_simp

/-- The first integer that is not a `float`: `(float) 16777217` is 16777216. -/
theorem to_float_16777217 : to_float 16777217 = 16777216 := by
  have hl : Int.log 2 |(16777217 : ℚ)| = 24 :=
    log_two_eq _ 24 (by norm_num) (by norm_num) (by norm_num)
  unfold to_float round_to
  rw [if_neg (by norm_num), hl]
  have : (16777217 : ℚ) / 2 ^ ((24 : Int) - (((24 : Nat) : Int) - 1)) = ((8388608 : Int) : ℚ) + 1 / 2 := by
    norm_num
  rw [this, round_even_tie]
  norm_num


/-- Rounding moves to one of the two neighbouring integers. -/
theorem round_even_bounds (y : ℚ) : ⌊y⌋ ≤ round_even y ∧ round_even y ≤ ⌊y⌋ + 1 := by
  unfold round_even
  split_ifs <;> constructor <;> omega

/-- Every value of the format is a significand of at most `2 ^ p` in
magnitude times a power of two. -/
theorem round_to_form (p : Nat) (q : ℚ) :
    ∃ m e : Int, |m| ≤ 2 ^ p ∧ round_to p q = (m : ℚ) * (2 : ℚ) ^ e := by
  by_cases h0 : q = 0
  · exact ⟨0, 0, by positivity, by simp [round_to, h0]⟩
  · refine ⟨round_even (q / (2 : ℚ) ^ (Int.log 2 |q| - ((p : Int) - 1))),
      Int.log 2 |q| - ((p : Int) - 1), ?_, by simp [round_to, h0]⟩
    have hq : 0 < |q| := abs_pos.mpr h0
    have hpos : (0 : ℚ) < (2 : ℚ) ^ (Int.log 2 |q| - ((p : Int) - 1)) := by positivity
    have hlt : |q| < (2 : ℚ) ^ (Int.log 2 |q| + 1) := by
      have := Int.lt_zpow_succ_log_self (b := 2) (by decide) |q|
      exact_mod_cast this
    have hsplit : (2 : ℚ) ^ (Int.log 2 |q| + 1)
        = (2 : ℚ) ^ (p : Nat) * (2 : ℚ) ^ (Int.log 2 |q| - ((p : Int) - 1)) := by
      rw [← zpow_natCast, ← zpow_add₀ (by norm_num : (2 : ℚ) ≠ 0)]
      congr 1
      ring
    have hy : |q / (2 : ℚ) ^ (Int.log 2 |q| - ((p : Int) - 1))| < (2 : ℚ) ^ (p : Nat) := by
      rw [abs_div, abs_of_pos hpos, div_lt_iff₀ hpos, ← hsplit]
      exact hlt
    obtain ⟨b1, b2⟩ := round_even_bounds (q / (2 : ℚ) ^ (Int.log 2 |q| - ((p : Int) - 1)))
    have hy' := abs_lt.mp hy
    have f1 : ⌊q / (2 : ℚ) ^ (Int.log 2 |q| - ((p : Int) - 1))⌋ < 2 ^ p := by
      rw [Int.floor_lt]
      exact_mod_cast hy'.2
    have f2 : -(2 ^ p : Int) ≤ ⌊q / (2 : ℚ) ^ (Int.log 2 |q| - ((p : Int) - 1))⌋ := by
      rw [Int.le_floor]
      have := hy'.1
      push_cast
      exact le_of_lt this
    rw [abs_le]
    constructor <;> omega

/-- The number in the banner is not a `float` value. -/
theorem to_float_ne_banner (q : ℚ) : to_float q ≠ 49999995000000 := by
  intro h
  obtain ⟨m, e, hm, hf⟩ := round_to_form 24 q
  have hc : (m : ℚ) * (2 : ℚ) ^ e = 49999995000000 := by
    rw [← hf]; exact h
  rcases le_or_lt e 6 with he | he
  · have h1 : (2 : ℚ) ^ e ≤ (2 : ℚ) ^ (6 : Int) := zpow_le_zpow_right₀ (by norm_num) he
    have h2 : |(m : ℚ)| ≤ 2 ^ 24 := by exact_mod_cast hm
    have h3 : |(m : ℚ) * (2 : ℚ) ^ e| ≤ 2 ^ 24 * (2 : ℚ) ^ (6 : Int) := by
      rw [abs_mul, abs_of_pos (by positivity : (0 : ℚ) < (2 : ℚ) ^ e)]
      exact mul_le_mul h2 h1 (by positivity) (by positivity)
    rw [hc] at h3
    norm_num at h3
  · obtain ⟨k, hk⟩ : ∃ k : Nat, e = ((7 + k : Nat) : Int) := ⟨(e - 7).toNat, by omega⟩
    rw [hk, zpow_natCast] at hc
    have hI : m * 2 ^ (7 + k) = (49999995000000 : Int) := by exact_mod_cast hc
    have hd : (128 : Int) ∣ 49999995000000 := by
      rw [← hI, pow_add]
      exact ⟨m * 2 ^ k, by ring⟩
    omega

/-- The first partial sum that is not a `float`: 16782321 rounds to
16782320. -/
theorem to_float_16782321 : to_float 16782321 = 16782320 := by
  have hl : Int.log 2 |(16782321 : ℚ)| = 24 :=
    log_two_eq _ 24 (by norm_num) (by norm_num) (by norm_num)
  unfold to_float round_to
  rw [if_neg (by norm_num), hl]
  have : (16782321 : ℚ) / 2 ^ ((24 : Int) - (((24 : Nat) : Int) - 1))
      = ((8391160 : Int) : ℚ) + 1 / 2 := by
    norm_num
  rw [this, round_even_tie]
  norm_num

/-- Natural numbers up to `2 ^ 24` are `float` values. -/
theorem to_float_natCast (x : Nat) (hx : x ≤ 2 ^ 24) : to_float (x : ℚ) = x :=
  round_to_natCast 24 (by decide) x hx

/-- Natural numbers up to `2 ^ 53` are `double` values. -/
theorem to_double_natCast (x : Nat) (hx : x ≤ 2 ^ 53) : to_double (x : ℚ) = x :=
  round_to_natCast 53 (by decide) x hx

/-- The last pass of a loop, split off. -/
theorem for_loop_last {σ : Type} (n : Int) (body : Int → σ → σ) :
    ∀ (k : Nat) (i : Int) (s : σ), (n - i).toNat = k → i ≤ n →
      for_loop (n + 1) body i s = body n (for_loop n body i s) := by
  intro k
  induction k with
  | zero =>
    intro i s hk hi
    have hin : i = n := by omega
    subst hin
    rw [for_loop_step _ _ _ _ (by omega), for_loop_done _ _ _ _ (by omega),
      for_loop_done _ _ _ _ (lt_irrefl _)]
  | succ k ih =>
    intro i s hk hi
    have hlt : i < n := by omega
    rw [for_loop_step _ _ _ _ (by omega : i < n + 1), for_loop_step _ _ _ _ hlt]
    exact ih (i + 1) (body i s) (by omega) (by omega)

/-- One call `catlas_sset(1, f, &(a[i]), 1)` is the assignment `a[i] = f`. -/
theorem catlas_sset_one (f : ℚ) (a : List ℚ) (i : Int) :
    catlas_sset 1 f a i 1 = write a i f := by
  unfold catlas_sset
  rw [for_loop_step _ _ _ _ (by decide), for_loop_done _ _ _ _ (by decide)]
  simp

/-- The two population blocks are the same function on arrays. -/
theorem populate_catlas_eq (N : Int) (a : List ℚ) : populate_catlas N a = populate_C N a := by
  unfold populate_catlas populate_C
  congr 1
  funext i b
  exact catlas_sset_one _ _ _

/-- The naive population block leaves, in an array of length `n`, the array
whose element `i` is `(float) i`, whatever the array held. -/
theorem populate_C_eq_float_iota (a : List ℚ) :
    populate_C a.length a = float_iota a.length := by
  have h := for_loop_invariant (a.length : Int) (fun i b => write b i (to_float (i : ℚ)))
    (fun j b => 0 ≤ j ∧ b.length = a.length ∧
      ∀ m : Nat, (m : Int) < j → b[m]? = some (to_float (m : ℚ)))
    (by
      intro j b hj hP
      obtain ⟨h0, hlen, hget⟩ := hP
      refine ⟨by omega, by simp [write, hlen], ?_⟩
      intro m hm
      simp only [write, List.getElem?_set]
      by_cases hjm : j.toNat = m
      · have hmj : ((m : Nat) : Int) = j := by omega
        have hlt : j.toNat < b.length := by omega
        rw [if_pos hjm, if_pos hlt, ← hmj]
        simp
      · rw [if_neg hjm]
        exact hget m (by omega))
    a.length 0 a (by simp) (by omega) ⟨le_refl _, rfl, by intro m hm; omega⟩
  obtain ⟨_, hlen, hget⟩ := h
  show for_loop (a.length : Int) (fun i b => write b i (to_float (i : ℚ))) 0 a
    = float_iota a.length
  apply List.ext_getElem?
  intro m
  by_cases hm : m < a.length
  · rw [hget m (by omega)]
    simp [float_iota, List.getElem?_range, hm]
  · have h1 : a.length ≤ m := by omega
    rw [List.getElem?_eq_none (by omega), List.getElem?_eq_none (by simp [float_iota]; omega)]

theorem iota_length (N : Nat) : (iota N).length = N := by simp [iota]

theorem float_iota_length (N : Nat) : (float_iota N).length = N := by simp [float_iota]

/-- Element `j` of `iota N`. -/
theorem read_iota (N : Nat) (j : Int) (h0 : 0 ≤ j) (hj : j < N) : read (iota N) j = (j : ℚ) := by
  obtain ⟨m, rfl⟩ := Int.eq_ofNat_of_zero_le h0
  have hm : m < N := by omega
  simp [read, iota, List.getD_eq_getElem?_getD, List.getElem?_range, hm]

/-- Element `j` of `float_iota N`. -/
theorem read_float_iota (N : Nat) (j : Int) (h0 : 0 ≤ j) (hj : j < N) :
    read (float_iota N) j = to_float (j : ℚ) := by
  obtain ⟨m, rfl⟩ := Int.eq_ofNat_of_zero_le h0
  have hm : m < N := by omega
  simp [read, float_iota, List.getD_eq_getElem?_getD, List.getElem?_range, hm]

/-- Up to the length `2 ^ 24 + 1` every index is a `float` value, and the
array of the converted indices is the array of the indices. -/
theorem float_iota_eq_iota (N : Nat) (hN : N ≤ 2 ^ 24 + 1) : float_iota N = iota N := by
  unfold float_iota iota
  apply List.map_congr_left
  intro i hi
  have : i < N := List.mem_range.mp hi
  exact to_float_natCast i (by omega)

/-- Running a population block any number `k ≥ 1` of times gives
`float_iota`. -/
theorem iterate_populate (a : List ℚ) (k : Nat) (hk : 1 ≤ k) :
    (populate_C a.length)^[k] a = float_iota a.length := by
  have hlen : ∀ j : Nat, ((populate_C a.length)^[j] a).length = a.length := by
    intro j
    induction j with
    | zero => rfl
    | succ j ih =>
      rw [Function.iterate_succ_apply']
      have := populate_C_eq_float_iota ((populate_C a.length)^[j] a)
      rw [ih] at this
      rw [this, float_iota_length]
  obtain ⟨j, rfl⟩ : ∃ j, k = j + 1 := ⟨k - 1, by omega⟩
  rw [Function.iterate_succ_apply']
  have := populate_C_eq_float_iota ((populate_C a.length)^[j] a)
  rw [hlen j] at this
  exact this

/-- The state `benchmark` hands back for either population block, run at
least once on an array of length `n`. -/
theorem benchmark_populate (w : Nat) (n : Nat) (a : List ℚ) (ha : a.length = n) (k : Int)
    (hk : 1 ≤ k) (start end_ : timeval) :
    (benchmark w (populate_C n) k start end_ a).1 = float_iota n ∧
    (benchmark w (populate_catlas n) k start end_ a).1 = float_iota n := by
  subst ha
  have hfun : populate_catlas (a.length : Int) = populate_C (a.length : Int) :=
    funext (populate_catlas_eq _)
  have e1 : (benchmark w (populate_C a.length) k start end_ a).1 = float_iota a.length := by
    rw [benchmark_state]
    exact iterate_populate a k.toNat (by omega)
  exact ⟨e1, by rw [hfun]; exact e1⟩

/-- The triangular number as a rational. -/
theorem triangle_cast (N : Nat) :
    ((N * (N - 1) / 2 : Nat) : ℚ) = (N : ℚ) * ((N : ℚ) - 1) / 2 := by
  rcases Nat.eq_zero_or_pos N with h0 | hpos
  · subst h0; simp
  · rw [Nat.cast_div (Nat.even_mul_pred_self N).two_dvd (by norm_num), Nat.cast_mul,
      Nat.cast_sub hpos]
    simp

/-- The naive float sum over the first `N ≤ 5793` indices: every partial sum
is a whole number below `2 ^ 24`, so no pass rounds. -/
theorem sum_float_iota (N M : Nat) (hNM : N ≤ M) (hN : N ≤ 5793) :
    sum_float N (iota M) = ((N * (N - 1) / 2 : Nat) : ℚ) := by
  have h := for_loop_invariant (N : Int)
    (fun i sum => to_float (to_double (sum + fabs (read (iota M) i))))
    (fun j sum => ∃ m : Nat, j = (m : Int) ∧ sum = ((m * (m - 1) / 2 : Nat) : ℚ))
    (by
      intro j sum hj hP
      obtain ⟨m, hm, hs⟩ := hP
      subst hm
      refine ⟨m + 1, by push_cast; ring, ?_⟩
      have hmN : m < N := by omega
      have hq : (0 : ℚ) ≤ ((m : Int) : ℚ) := by positivity
      have hbound : (m + 1) * (m + 1 - 1) / 2 ≤ 2 ^ 24 := by
        calc (m + 1) * (m + 1 - 1) / 2 ≤ 5793 * 5792 / 2 :=
              Nat.div_le_div_right (Nat.mul_le_mul (by omega) (by omega))
          _ ≤ 2 ^ 24 := by norm_num
      have hsum : sum + fabs (read (iota M) (m : Int))
          = (((m + 1) * (m + 1 - 1) / 2 : Nat) : ℚ) := by
        rw [read_iota M (m : Int) (by omega) (by omega), fabs, abs_of_nonneg hq, hs,
          Nat.triangle_succ]
        push_cast
        ring
      show to_float (to_double (sum + fabs (read (iota M) (m : Int)))) = _
      rw [hsum, to_double_natCast _ (le_trans hbound (by norm_num)),
        to_float_natCast _ hbound])
    N 0 0 (by simp) (by omega) ⟨0, by simp, by simp⟩
  obtain ⟨m, hm, hs⟩ := h
  have : m = N := by omega
  subst this
  exact hs

/-- A non-empty run of the naive float sum ends with a conversion to
`float`. -/
theorem sum_float_succ (n : Nat) (a : List ℚ) :
    sum_float ((n : Int) + 1) a
      = to_float (to_double (sum_float n a + fabs (read a (n : Int)))) := by
  unfold sum_float
  exact for_loop_last (n : Int) _ n 0 0 (by simp) (by omega)

/-- Truncation of a rational that is not below zero, from its two bounds. -/
theorem trunc_eq_of_nonneg (q : ℚ) (k : Int) (h0 : 0 ≤ q) (h1 : (k : ℚ) ≤ q)
    (h2 : q < (k : ℚ) + 1) : CFloat.trunc q = k := by
  unfold CFloat.trunc
  rw [if_pos h0, Int.floor_eq_iff]
  exact ⟨h1, h2⟩

/-- Truncation of a rational below zero, from its two bounds. -/
theorem trunc_eq_of_neg (q : ℚ) (k : Int) (h0 : q < 0) (h1 : (k : ℚ) - 1 < q)
    (h2 : q ≤ (k : ℚ)) : CFloat.trunc q = k := by
  unfold CFloat.trunc
  rw [if_neg (not_le.mpr h0), Int.ceil_eq_iff]
  exact ⟨h1, h2⟩

/-- Conversion to `int` of a value whose truncation `k` is in range. -/
theorem toInt_fin (indef : CFloat → Int) (q : ℚ) (k : Int) (hk : CFloat.trunc q = k)
    (hlo : INT_MIN ≤ k) (hhi : k ≤ INT_MAX) : CFloat.toInt indef (CFloat.fin q) = k := by
  simp only [CFloat.toInt, hk]
  rw [if_pos ⟨hlo, hhi⟩]

/-- The printed percentage in terms of the two `int` samples. -/
theorem took_percent_samples (indef : CFloat → Int) (x y : CFloat) (s1 s2 : Int)
    (h1 : CFloat.toInt indef x = s1) (h2 : CFloat.toInt indef y = s2) :
    took_percent indef x y =
      CFloat.mul (CFloat.div (CFloat.ofInt s2) (CFloat.ofInt s1)) (CFloat.ofInt 100) := by
  simp only [took_percent, h1, h2]

/-- Truncation leaves a whole number as it is. -/
theorem trunc_intCast (k : Int) : CFloat.trunc (k : ℚ) = k := by
  unfold CFloat.trunc
  split_ifs <;> simp

/-- On whole-number averages within the range of `int` the printed percentage
is the specification's ratio. -/
theorem took_percent_whole (indef : CFloat → Int) (k1 k2 : Int)
    (h1 : INT_MIN ≤ k1 ∧ k1 ≤ INT_MAX) (h2 : INT_MIN ≤ k2 ∧ k2 ≤ INT_MAX) :
    took_percent indef (CFloat.ofInt k1) (CFloat.ofInt k2)
      = ratio_spec (CFloat.ofInt k1) (CFloat.ofInt k2) := by
  exact took_percent_samples indef _ _ k1 k2
    (toInt_fin indef _ k1 (trunc_intCast k1) h1.1 h1.2)
    (toInt_fin indef _ k2 (trunc_intCast k2) h2.1 h2.2)

/-- C3: the code at the averages 10.9 and 2.7.  The samples are stored in
`int` variables, so `main` prints 2 / 10 * 100 = 20, while the claimed formula
gives 2.7 / 10.9 * 100 = 2700/109 (about 24.77).  At 10.0 and 2.0 the two
agree on 20. -/
theorem C3_truncated_samples (indef : CFloat → Int) :
    took_percent indef (CFloat.fin (109 / 10)) (CFloat.fin (27 / 10)) = CFloat.fin 20 ∧
    ratio_spec (CFloat.fin (109 / 10)) (CFloat.fin (27 / 10)) = CFloat.fin (2700 / 109) ∧
    took_percent indef (CFloat.fin (109 / 10)) (CFloat.fin (27 / 10))
      ≠ ratio_spec (CFloat.fin (109 / 10)) (CFloat.fin (27 / 10)) ∧
    took_percent indef (CFloat.fin 10) (CFloat.fin 2) = CFloat.fin 20 ∧
    ratio_spec (CFloat.fin 10) (CFloat.fin 2) = CFloat.fin 20 := by
  have t1 : CFloat.toInt indef (CFloat.fin (109 / 10)) = 10 :=
    toInt_fin indef _ 10 (trunc_eq_of_nonneg _ 10 (by norm_num) (by norm_num) (by norm_num))
      (by decide) (by decide)
  have t2 : CFloat.toInt indef (CFloat.fin (27 / 10)) = 2 :=
    toInt_fin indef _ 2 (trunc_eq_of_nonneg _ 2 (by norm_num) (by norm_num) (by norm_num))
      (by decide) (by decide)
  have t3 : CFloat.toInt indef (CFloat.fin 10) = 10 :=
    toInt_fin indef _ 10 (trunc_eq_of_nonneg _ 10 (by norm_num) (by norm_num) (by norm_num))
      (by decide) (by decide)
  have t4 : CFloat.toInt indef (CFloat.fin 2) = 2 :=
    toInt_fin indef _ 2 (trunc_eq_of_nonneg _ 2 (by norm_num) (by norm_num) (by norm_num))
      (by decide) (by decide)
  have e1 : took_percent indef (CFloat.fin (109 / 10)) (CFloat.fin (27 / 10)) = CFloat.fin 20 := by
    rw [took_percent_samples indef _ _ 10 2 t1 t2]
    simp only [CFloat.ofInt, CFloat.div, CFloat.mul]
    norm_num
  have e2 : ratio_spec (CFloat.fin (109 / 10)) (CFloat.fin (27 / 10)) = CFloat.fin (2700 / 109) := by
    simp only [ratio_spec, CFloat.ofInt, CFloat.div, CFloat.mul]
    norm_num
  refine ⟨e1, e2, ?_, ?_, ?_⟩
  · rw [e1, e2]
    intro h
    injection h with h
    norm_num at h
  · rw [took_percent_samples indef _ _ 10 2 t3 t4]
    simp only [CFloat.ofInt, CFloat.div, CFloat.mul]
    norm_num
  · simp only [ratio_spec, CFloat.ofInt, CFloat.div, CFloat.mul]
    norm_num

/-- C6: for every accelerated average, when the naive average is 0 the
percentage `main` computes is not finite: positive infinity, negative
infinity or NaN as the accelerated sample is above, below or equal to zero.
The division is the total `CFloat.div`: it returns a value for the zero
divisor. -/
theorem C6_zero_naive_average (indef : CFloat → Int) (accelerated_avg : CFloat) :
    (took_percent indef (CFloat.fin 0) accelerated_avg).isFinite = false ∧
    took_percent indef (CFloat.fin 0) accelerated_avg =
      (if 0 < CFloat.toInt indef accelerated_avg then CFloat.pinf
       else if CFloat.toInt indef accelerated_avg < 0 then CFloat.ninf
       else CFloat.nan) := by
  have t0 : CFloat.toInt indef (CFloat.fin 0) = 0 :=
    toInt_fin indef _ 0 (trunc_eq_of_nonneg _ 0 (by norm_num) (by norm_num) (by norm_num))
      (by decide) (by decide)
  have key : took_percent indef (CFloat.fin 0) accelerated_avg =
      (if 0 < CFloat.toInt indef accelerated_avg then CFloat.pinf
       else if CFloat.toInt indef accelerated_avg < 0 then CFloat.ninf
       else CFloat.nan) := by
    rw [took_percent_samples indef _ _ 0 _ t0 rfl]
    simp only [CFloat.ofInt, CFloat.div, Int.cast_zero, if_true, Int.cast_pos, Int.cast_lt_zero]
    split_ifs <;> simp [CFloat.mul]
  refine ⟨?_, key⟩
  rw [key]
  split_ifs <;> rfl

/-- Evaluation of the naive double-precision sum on a two-element array. -/
theorem sum_double_two (indef : CFloat → Int) (x y : ℚ) :
    sum_double indef 2 [x, y] =
      to_double (to_double (0 + ((c_abs (CFloat.toInt indef (CFloat.fin x)) : Int) : ℚ))
        + ((c_abs (CFloat.toInt indef (CFloat.fin y)) : Int) : ℚ)) := by
  unfold sum_double
  rw [for_loop_step _ _ _ _ (by decide), for_loop_step _ _ _ _ (by decide),
    for_loop_done _ _ _ _ (by decide)]
  simp [read]

/-- On the program's own kind of data, the integers `0 .. N-1` with
`N ≤ 2 ^ 27` (the program has `N = 10000000`), the naive double-precision loop
does sum the absolute values: every partial sum is a whole number below
`2 ^ 53`. -/
theorem sum_double_iota (indef : CFloat → Int) (N : Nat) (hN : N ≤ 2 ^ 27) :
    sum_double indef N (iota N) = (N : ℚ) * ((N : ℚ) - 1) / 2 := by
  have h := for_loop_invariant (N : Int)
    (fun i sum => to_double
      (sum + ((c_abs (CFloat.toInt indef (CFloat.fin (read (iota N) i))) : Int) : ℚ)))
    (fun j sum => ∃ m : Nat, j = (m : Int) ∧ sum = ((m * (m - 1) / 2 : Nat) : ℚ))
    (by
      intro j sum hj hP
      obtain ⟨m, hm, hs⟩ := hP
      subst hm
      refine ⟨m + 1, by push_cast; ring, ?_⟩
      have hmN : m < 2 ^ 27 := by omega
      have hmax : (m : Int) ≤ INT_MAX := by unfold INT_MAX; omega
      have hmin : INT_MIN ≤ (m : Int) := by unfold INT_MIN; omega
      have habs : c_abs (m : Int) = (m : Int) := by
        unfold c_abs
        rw [abs_of_nonneg (by omega)]
        exact wrap_eq_self 32 (by decide) _ (by norm_num; omega) (by norm_num; omega)
      have hbound : (m + 1) * (m + 1 - 1) / 2 ≤ 2 ^ 53 := by
        calc (m + 1) * (m + 1 - 1) / 2 ≤ 2 ^ 27 * 2 ^ 27 / 2 :=
              Nat.div_le_div_right (Nat.mul_le_mul (by omega) (by omega))
          _ ≤ 2 ^ 53 := by norm_num
      show to_double (sum
        + ((c_abs (CFloat.toInt indef (CFloat.fin (read (iota N) (m : Int)))) : Int) : ℚ)) = _
      rw [read_iota N (m : Int) (by omega) hj,
        toInt_fin indef _ (m : Int) (trunc_intCast _) hmin hmax, habs, hs]
      have hsum : ((m * (m - 1) / 2 : Nat) : ℚ) + (((m : Nat) : Int) : ℚ)
          = (((m + 1) * (m + 1 - 1) / 2 : Nat) : ℚ) := by
        rw [Nat.triangle_succ]
        push_cast
        ring
      rw [hsum, to_double_natCast _ hbound])
    N 0 0 (by simp) (by omega) ⟨0, by simp, by simp⟩
  obtain ⟨m, hm, hs⟩ := h
  have : m = N := by omega
  subst this
  rw [← triangle_cast]
  exact hs

/-- C9: the code on the array `[0.5, -1.5]`.  The naive loop calls the integer
`abs`, so each element is truncated to `int` first and the loop prints
`|0| + |-1| = 1`; the sum of absolute values, which `cblas_dasum` returns,
is `0.5 + 1.5 = 2`. -/
theorem C9_integer_abs (indef : CFloat → Int) :
    sum_double indef 2 [1 / 2, -3 / 2] = 1 ∧
    sum_double_blas 2 [1 / 2, -3 / 2] = 2 ∧
    sum_double indef 2 [1 / 2, -3 / 2] ≠ sum_double_blas 2 [1 / 2, -3 / 2] := by
  have t1 : CFloat.toInt indef (CFloat.fin (1 / 2)) = 0 :=
    toInt_fin indef _ 0 (trunc_eq_of_nonneg _ 0 (by norm_num) (by norm_num) (by norm_num))
      (by decide) (by decide)
  have t2 : CFloat.toInt indef (CFloat.fin (-3 / 2)) = -1 :=
    toInt_fin indef _ (-1) (trunc_eq_of_neg _ (-1) (by norm_num) (by norm_num) (by norm_num))
      (by decide) (by decide)
  have a0 : c_abs 0 = 0 := by decide
  have a1 : c_abs (-1) = 1 := by decide
  have d0 : to_double 0 = 0 := by simp [to_double, round_to]
  have d1 : to_double 1 = 1 := by
    have := to_double_natCast 1 (by norm_num)
    simpa using this
  have e1 : sum_double indef 2 [1 / 2, -3 / 2] = 1 := by
    rw [sum_double_two, t1, t2, a0, a1]
    norm_num [d0, d1]
  have e2 : sum_double_blas 2 [1 / 2, -3 / 2] = 2 := by
    simp [sum_double_blas, cblas_dasum, read, List.range_succ]
    norm_num [abs_of_nonneg, abs_of_neg]
  refine ⟨e1, e2, ?_⟩
  rw [e1, e2]
  norm_num


/-- Loop invariant of the naive search, at exit: the position found is in the
array, holds a largest absolute value, and every earlier element is strictly
smaller in absolute value. -/
theorem search_C_spec (a : List ℚ) (hne : a ≠ []) :
    0 ≤ search_C a.length a ∧ search_C a.length a < a.length ∧
    (∀ j : Int, 0 ≤ j → j < a.length → |read a j| ≤ |read a (search_C a.length a)|) ∧
    (∀ j : Int, 0 ≤ j → j < search_C a.length a →
      |read a j| < |read a (search_C a.length a)|) := by
  have hpos : 0 < a.length := List.length_pos.mpr hne
  have h := for_loop_invariant (a.length : Int)
    (fun i maxposition =>
      if fabs (read a i) > fabs (read a maxposition) then i else maxposition)
    (fun j p => 0 ≤ j ∧ 0 ≤ p ∧ (p < j ∨ p = 0) ∧
      (∀ m : Int, 0 ≤ m → m < j → |read a m| ≤ |read a p|) ∧
      (∀ m : Int, 0 ≤ m → m < p → |read a m| < |read a p|))
    (by
      intro j p hj hP
      obtain ⟨h0, hp0, hpj, hmax, hfirst⟩ := hP
      show 0 ≤ j + 1 ∧ 0 ≤ (if fabs (read a j) > fabs (read a p) then j else p) ∧ _
      by_cases hc : fabs (read a j) > fabs (read a p)
      · simp only [if_pos hc]
        have hc2 : |read a p| < |read a j| := hc
        refine ⟨by omega, h0, Or.inl (by omega), ?_, ?_⟩
        · intro m hm0 hm
          rcases eq_or_lt_of_le (Int.lt_add_one_iff.mp hm) with h | h
          · rw [h]
          · exact le_of_lt (lt_of_le_of_lt (hmax m hm0 h) hc2)
        · intro m hm0 hm
          exact lt_of_le_of_lt (hmax m hm0 hm) hc2
      · simp only [if_neg hc]
        have hc2 : |read a j| ≤ |read a p| := not_lt.mp hc
        refine ⟨by omega, hp0, by omega, ?_, hfirst⟩
        intro m hm0 hm
        rcases eq_or_lt_of_le (Int.lt_add_one_iff.mp hm) with h | h
        · rw [h]; exact hc2
        · exact hmax m hm0 h)
    a.length 0 0 (by simp) (by omega)
    ⟨le_refl _, le_refl _, Or.inr rfl, by intro m h0 h1; omega, by intro m h0 h1; omega⟩
  obtain ⟨_, hp0, hpj, hmax, hfirst⟩ := h
  exact ⟨hp0, by rcases hpj with h | h <;> [exact h; (change search_C _ _ = 0 at h; omega)],
    hmax, hfirst⟩

/-- The library search returns the position the naive loop finds. -/
theorem search_blas_eq_search_C (a : List ℚ) (hne : a ≠ []) :
    search_blas a.length a = search_C a.length a := by
  obtain ⟨hp0, hpn, hmax, hfirst⟩ := search_C_spec a hne
  obtain ⟨p, hp⟩ := Int.eq_ofNat_of_zero_le hp0
  have hpn2 : p < a.length := by omega
  have harg : (List.range a.length).argmax (fun (k : Nat) => |read a ((k : Int) * 1)|)
      = some p := by
    rw [List.argmax_eq_some_iff]
    refine ⟨List.mem_range.mpr hpn2, ?_, ?_⟩
    · intro m hm
      have hm2 : m < a.length := List.mem_range.mp hm
      have := hmax (m : Int) (by omega) (by omega)
      simpa [hp] using this
    · intro m hm hle
      have hm2 : m < a.length := List.mem_range.mp hm
      have i1 : (List.range a.length).indexOf p = p := by
        have := List.indexOf_getElem (List.nodup_range a.length) p (by simpa using hpn2)
        simpa using this
      have i2 : (List.range a.length).indexOf m = m := by
        have := List.indexOf_getElem (List.nodup_range a.length) m (by simpa using hm2)
        simpa using this
      rw [i1, i2]
      by_contra hlt
      have hlt2 : (m : Int) < search_C a.length a := by omega
      have := hfirst (m : Int) (by omega) hlt2
      rw [hp] at this
      simp only [mul_one] at hle
      exact absurd hle (not_le.mpr this)
  unfold search_blas cblas_isamax
  simp only [Int.toNat_ofNat, harg, Option.getD_some]
  exact hp.symm

/-- C7: on every non-empty array the naive search loop ends at an index
`p` with `0 ≤ p < n`, `|a[p]| ≥ |a[j]|` for every `j < n`, and `|a[j]| < |a[p]|`
for every `j < p` (so `p` is the first index of a largest absolute value);
`cblas_isamax` returns the same index.  On `[3, -7, 2, 5, -1]` both give 1. -/
theorem C7_search_first_max (myArray : List ℚ) (hne : myArray ≠ []) :
    (0 ≤ search_C myArray.length myArray ∧
      search_C myArray.length myArray < myArray.length) ∧
    (∀ j : Int, 0 ≤ j → j < myArray.length →
      |read myArray j| ≤ |read myArray (search_C myArray.length myArray)|) ∧
    (∀ j : Int, 0 ≤ j → j < search_C myArray.length myArray →
      |read myArray j| < |read myArray (search_C myArray.length myArray)|) ∧
    search_blas myArray.length myArray = search_C myArray.length myArray ∧
    search_C 5 [3, -7, 2, 5, -1] = 1 ∧ search_blas 5 [3, -7, 2, 5, -1] = 1 := by
  obtain ⟨h1, h2, h3, h4⟩ := search_C_spec myArray hne
  have r0 : read [3, -7, 2, 5, -1] 0 = 3 := rfl
  have r1 : read [3, -7, 2, 5, -1] 1 = -7 := rfl
  have r2 : read [3, -7, 2, 5, -1] 2 = 2 := rfl
  have r3 : read [3, -7, 2, 5, -1] 3 = 5 := rfl
  have r4 : read [3, -7, 2, 5, -1] 4 = -1 := rfl
  have f0 : fabs 3 = 3 := by norm_num [fabs]
  have f1 : fabs (-7) = 7 := by norm_num [fabs]
  have f2 : fabs 2 = 2 := by norm_num [fabs]
  have f3 : fabs 5 = 5 := by norm_num [fabs]
  have f4 : fabs (-1) = 1 := by norm_num [fabs]
  have hc : search_C 5 [3, -7, 2, 5, -1] = 1 := by
    unfold search_C
    rw [for_loop_step _ _ _ _ (by decide), for_loop_step _ _ _ _ (by decide),
      for_loop_step _ _ _ _ (by decide), for_loop_step _ _ _ _ (by decide),
      for_loop_step _ _ _ _ (by decide), for_loop_done _ _ _ _ (by decide)]
    simp only [zero_add, Int.reduceAdd, r0, f0, gt_iff_lt, lt_self_iff_false, if_false,
      r1, f1, r2, f2, r3, f3, r4, f4]
    norm_num [r1, f1, r2, f2, r3, f3, r4, f4]
  refine ⟨⟨h1, h2⟩, h3, h4, search_blas_eq_search_C myArray hne, hc, ?_⟩
  have := search_blas_eq_search_C [3, -7, 2, 5, -1] (by simp)
  rw [← hc]
  exact this

/-- C7 on `[2, -9, 9, 4]`, where the largest absolute value occurs twice. -/
theorem C7_witness :
    ([2, -9, 9, 4] : List ℚ) ≠ [] ∧
    (0 ≤ search_C ([2, -9, 9, 4] : List ℚ).length [2, -9, 9, 4] ∧
      search_C ([2, -9, 9, 4] : List ℚ).length [2, -9, 9, 4]
        < ([2, -9, 9, 4] : List ℚ).length) ∧
    search_blas ([2, -9, 9, 4] : List ℚ).length [2, -9, 9, 4]
      = search_C ([2, -9, 9, 4] : List ℚ).length [2, -9, 9, 4] :=
  have h := C7_search_first_max [2, -9, 9, 4] (by simp)
  ⟨by simp, h.1, h.2.2.2.1⟩


/-- C8, as the claim states it, fails: the accumulator is a `float`.  Over the
integers `0 .. 5793` the loop yields 16782320 where `N * (N - 1) / 2` is
16782321, and for the program's `N = 10000000` it does not yield
49999995000000, which is not a `float` value. -/
theorem C8_counterexample :
    sum_float 5794 (iota 5794) = 16782320 ∧
    (5794 : ℚ) * ((5794 : ℚ) - 1) / 2 = 16782321 ∧
    sum_float 5794 (iota 5794) ≠ (5794 : ℚ) * ((5794 : ℚ) - 1) / 2 ∧
    sum_float 10000000 (iota 10000000) ≠ 49999995000000 := by
  have e1 : sum_float 5794 (iota 5794) = 16782320 := by
    rw [show (5794 : Int) = ((5793 : Nat) : Int) + 1 from rfl, sum_float_succ,
      sum_float_iota 5793 5794 (by decide) (by decide),
      read_iota 5794 _ (by decide) (by decide)]
    have hd := to_double_natCast 16782321 (by norm_num)
    have hv : (((5793 * (5793 - 1) / 2 : Nat) : ℚ)) + fabs (((5793 : Nat) : Int) : ℚ)
        = ((16782321 : Nat) : ℚ) := by
      norm_num [fabs]
    rw [hv, hd]
    exact_mod_cast to_float_16782321
  refine ⟨e1, by norm_num, ?_, ?_⟩
  · rw [e1]; norm_num
  · rw [show (10000000 : Int) = ((9999999 : Nat) : Int) + 1 from rfl, sum_float_succ]
    exact to_float_ne_banner _

/-- C8, amended: for every `N ≤ 5793` the naive summation loop over the array
whose element `i` is the integer `i` yields `N * (N - 1) / 2` (every partial
sum is a whole number below `2 ^ 24`, which the `float` accumulator holds
exactly), 45 for `N = 10`; the setup loop does leave that array up to the
length `2 ^ 24 + 1`; for `N = 10000000` the loop does not yield the number in
the banner. -/
theorem C8_sum_of_indices (floatArray : List ℚ) (N : Nat) (hN : N ≤ 5793)
    (hlen : floatArray.length ≤ 2 ^ 24 + 1) :
    populate_C floatArray.length floatArray = iota floatArray.length ∧
    sum_float N (iota N) = (N : ℚ) * ((N : ℚ) - 1) / 2 ∧
    sum_float 10 (iota 10) = 45 ∧
    sum_float 10000000 (iota 10000000) ≠ 49999995000000 := by
  refine ⟨?_, ?_, ?_, ?_⟩
  · rw [populate_C_eq_float_iota, float_iota_eq_iota _ hlen]
  · rw [sum_float_iota N N (le_refl _) hN, triangle_cast]
  · have h := sum_float_iota 10 10 (le_refl _) (by decide)
    rw [show ((10 : Nat) : Int) = 10 from rfl] at h
    rw [h]
    norm_num
  · rw [show (10000000 : Int) = ((9999999 : Nat) : Int) + 1 from rfl, sum_float_succ]
    exact to_float_ne_banner _

/-- C8, amended, at `N = 100` with a setup on an array of three elements. -/
theorem C8_witness :
    ((100 : Nat) ≤ 5793 ∧ ([9, 9, 9] : List ℚ).length ≤ 2 ^ 24 + 1) ∧
    populate_C ([9, 9, 9] : List ℚ).length [9, 9, 9] = iota ([9, 9, 9] : List ℚ).length ∧
    sum_float (100 : Nat) (iota 100) = ((100 : Nat) : ℚ) * (((100 : Nat) : ℚ) - 1) / 2 :=
  have h := C8_sum_of_indices [9, 9, 9] 100 (by decide) (by decide)
  ⟨⟨by decide, by decide⟩, h.1, h.2.1⟩

/-- C10, as the claim states it, fails on long arrays: the array is a `float`
array and `(float) 16777217` is 16777216.  After one run of either block on
an array of 16777218 elements, element 16777217 is 16777216. -/
theorem C10_counterexample :
    read (benchmark 64 (populate_C 16777218) 1 ⟨0, 0⟩ ⟨0, 1000⟩
      (List.replicate 16777218 0)).1 16777217 = 16777216 ∧
    read (benchmark 64 (populate_catlas 16777218) 1 ⟨0, 0⟩ ⟨0, 1000⟩
      (List.replicate 16777218 0)).1 16777217 = 16777216 ∧
    (16777216 : ℚ) ≠ ((16777217 : Int) : ℚ) := by
  obtain ⟨e1, e2⟩ := benchmark_populate 64 16777218 (List.replicate 16777218 (0 : ℚ))
    (List.length_replicate _ _) 1 (by decide) ⟨0, 0⟩ ⟨0, 1000⟩
  simp only [Nat.cast_ofNat] at e1 e2
  have hr : read (float_iota 16777218) 16777217 = 16777216 := by
    rw [read_float_iota 16777218 16777217 (by decide) (by decide)]
    exact_mod_cast to_float_16777217
  refine ⟨?_, ?_, by norm_num⟩
  · rw [e1]; exact hr
  · rw [e2]; exact hr

/-- C10, amended: for every array, whatever it holds, and every count `k ≥ 1`,
running the naive index-fill block `k` times through `benchmark` and running
the `catlas_sset` block `k` times both leave the array whose element `i` is
`(float) i`: the same content for both, whatever `k`.  When the length `n` is
at most `2 ^ 24 + 1`, element `i` is `i` for every `i < n`.  For `n = 5` the
array is `[0, 1, 2, 3, 4]`. -/
theorem C10_population_agrees (w : Nat) (myArray : List ℚ) (k : Int) (hk : 1 ≤ k)
    (start end_ : timeval) :
    ((benchmark w (populate_C myArray.length) k start end_ myArray).1
        = float_iota myArray.length ∧
      (benchmark w (populate_catlas myArray.length) k start end_ myArray).1
        = float_iota myArray.length) ∧
    (myArray.length ≤ 2 ^ 24 + 1 →
      (benchmark w (populate_C myArray.length) k start end_ myArray).1 = iota myArray.length ∧
      (benchmark w (populate_catlas myArray.length) k start end_ myArray).1
        = iota myArray.length ∧
      ∀ i : Int, 0 ≤ i → i < myArray.length →
        read (benchmark w (populate_C myArray.length) k start end_ myArray).1 i = (i : ℚ) ∧
        read (benchmark w (populate_catlas myArray.length) k start end_ myArray).1 i
          = (i : ℚ)) ∧
    iota 5 = [0, 1, 2, 3, 4] := by
  obtain ⟨e1, e2⟩ := benchmark_populate w myArray.length myArray rfl k hk start end_
  refine ⟨⟨e1, e2⟩, ?_, ?_⟩
  · intro hlen
    rw [e1, e2, float_iota_eq_iota _ hlen]
    refine ⟨rfl, rfl, ?_⟩
    intro i h0 hi
    exact ⟨read_iota _ i h0 hi, read_iota _ i h0 hi⟩
  · simp [iota, List.range_succ]

/-- C10, amended, on an array of five nines, with the count 50 of the desktop
build. -/
theorem C10_witness :
    ((1 : Int) ≤ 50 ∧ ([9, 9, 9, 9, 9] : List ℚ).length ≤ 2 ^ 24 + 1) ∧
    (benchmark 64 (populate_C ([9, 9, 9, 9, 9] : List ℚ).length) 50
      ⟨10, 0⟩ ⟨10, 500⟩ [9, 9, 9, 9, 9]).1 = [0, 1, 2, 3, 4] ∧
    (benchmark 64 (populate_catlas ([9, 9, 9, 9, 9] : List ℚ).length) 50
      ⟨10, 0⟩ ⟨10, 500⟩ [9, 9, 9, 9, 9]).1 = [0, 1, 2, 3, 4] :=
  have h := C10_population_agrees 64 [9, 9, 9, 9, 9] 50 (by decide) ⟨10, 0⟩ ⟨10, 500⟩
  have h5 := h.2.1 (by decide)
  ⟨⟨by decide, by decide⟩, h5.1.trans h.2.2, h5.2.1.trans h.2.2⟩

end Accelerate
